import Mathlib

/-
Verification of the YASFM structure-from-motion bookkeeping core
(`src/YASFM/sfm_data.cpp`, `src/YASFM/features.cpp`).

The C++ code is shallowly embedded:
* `double` scalars are modelled as exact rationals; the C library `sqrt`
  is abstracted as a function parameter.
* `NViewMatch` (declared in a header outside the provided sources; the spec
  defines it as a mapping from camera index to local observation index with
  unique keys) is modelled as an association list with first-match lookup.
* Operations that can throw (`std::map::at`) or hit undefined behaviour
  (out-of-range `operator[]` on vectors) return `Option`, with `none`
  standing for the aborted call.
-/

namespace Yasfm

/-- 2D point (Eigen `Vector2d`), with exact rational coordinates. -/
abbrev Vec2 : Type := ℚ × ℚ

/-- 3D point (Eigen `Vector3d`), with exact rational coordinates. -/
abbrev Vec3 : Type := ℚ × ℚ × ℚ

/-- Modelled from the spec: `NViewMatch` (typedef outside src/) is a mapping
from camera index to local observation index with unique keys.  Embedded as an
association list; all operations below preserve key uniqueness and lookups
take the first matching entry. -/
abbrev NVMatch : Type := List (ℤ × ℤ)

/-- Map lookup (`std::unordered_map::find` / the successful case of `at`). -/
def lookup (m : NVMatch) (k : ℤ) : Option ℤ :=
  (m.find? (fun p => p.1 == k)).map Prod.snd

/-- `operator[]` followed by assignment: replace the value at `k` if present,
otherwise add the entry. -/
def assign (m : NVMatch) (k : ℤ) (v : ℤ) : NVMatch :=
  match m with
  | [] => [(k, v)]
  | p :: rest => if p.1 = k then (k, v) :: rest else p :: assign rest k v

/-- `emplace`: insert `(k, v)` only when no entry with key `k` exists. -/
def emplace (m : NVMatch) (k : ℤ) (v : ℤ) : NVMatch :=
  if (lookup m k).isSome then m else m ++ [(k, v)]

/-- `erase`: remove the entry with key `k` (if any). -/
def eraseKey (m : NVMatch) (k : ℤ) : NVMatch :=
  m.filter (fun p => !(p.1 == k))

/-- Key sets of two maps are disjoint (decidable formulation used as a
record field and in witnesses). -/
def DisjointKeys (m1 m2 : NVMatch) : Prop :=
  ∀ p ∈ m1, lookup m2 p.1 = none

instance (m1 m2 : NVMatch) : Decidable (DisjointKeys m1 m2) :=
  List.decidableBAll _ m1

theorem lookup_nil (k : ℤ) : lookup [] k = none := rfl

theorem lookup_cons (p : ℤ × ℤ) (m : NVMatch) (k : ℤ) :
    lookup (p :: m) k = if p.1 = k then some p.2 else lookup m k := by
  by_cases h : p.1 = k
  · rw [lookup, List.find?_cons_of_pos _ (by simp [h]), if_pos h]; rfl
  · rw [lookup, List.find?_cons_of_neg _ (by simp [h]), if_neg h]; rfl

theorem lookup_append (m1 m2 : NVMatch) (k : ℤ) :
    lookup (m1 ++ m2) k =
      match lookup m1 k with
      | some v => some v
      | none => lookup m2 k := by
  induction m1 with
  | nil => simp [lookup_nil]
  | cons p rest ih =>
      by_cases h : p.1 = k
      · simp only [List.cons_append, lookup_cons, if_pos h]
      · simp only [List.cons_append, lookup_cons, if_neg h, ih]

theorem lookup_assign (m : NVMatch) (k v k' : ℤ) :
    lookup (assign m k v) k' = if k' = k then some v else lookup m k' := by
  induction m with
  | nil =>
      rw [show assign [] k v = [(k, v)] from rfl, lookup_cons]
      by_cases h : k' = k
      · rw [if_pos (h.symm), if_pos h]
      · rw [if_neg (fun hh => h hh.symm), if_neg h, lookup_nil]
  | cons p rest ih =>
      by_cases hp : p.1 = k
      · rw [assign, if_pos hp, lookup_cons]
        by_cases h : k' = k
        · rw [if_pos (show (k, v).1 = k' from h.symm), if_pos h]
        · rw [if_neg (show ¬(k, v).1 = k' from fun hh => h hh.symm), if_neg h,
            lookup_cons, if_neg (show ¬p.1 = k' from by rw [hp]; exact fun hh => h hh.symm)]
      · rw [assign, if_neg hp, lookup_cons]
        by_cases hpk : p.1 = k'
        · rw [if_pos hpk, if_neg (fun hh => hp (by rw [hpk, hh])),
            lookup_cons, if_pos hpk]
        · rw [if_neg hpk, ih, lookup_cons, if_neg hpk]

theorem lookup_emplace (m : NVMatch) (k v k' : ℤ) :
    lookup (emplace m k v) k' =
      if k' = k then some ((lookup m k).getD v) else lookup m k' := by
  unfold emplace
  rcases hm : lookup m k with _ | w
  · simp only [hm, Option.isSome_none, Bool.false_eq_true, if_false]
    rw [lookup_append]
    rcases h2 : lookup m k' with _ | u
    · rw [lookup_cons]
      by_cases h : k' = k
      · rw [if_pos (show (k, v).1 = k' from h.symm), if_pos h]; rfl
      · rw [if_neg (show ¬(k, v).1 = k' from fun hh => h hh.symm), lookup_nil,
          if_neg h]
    · by_cases h : k' = k
      · rw [h] at h2; rw [hm] at h2; cases h2
      · rw [if_neg h]
  · rw [if_pos (show (some w).isSome = true from rfl)]
    by_cases h : k' = k
    · rw [if_pos h, h, hm]; rfl
    · rw [if_neg h]

theorem lookup_eraseKey (m : NVMatch) (k k' : ℤ) :
    lookup (eraseKey m k) k' = if k' = k then none else lookup m k' := by
  induction m with
  | nil =>
      rw [show eraseKey [] k = [] from rfl, lookup_nil]
      by_cases h : k' = k
      · rw [if_pos h]
      · rw [if_neg h]
  | cons p rest ih =>
      rw [eraseKey, List.filter_cons]
      by_cases hp : p.1 = k
      · rw [if_neg (by simp [hp])]
        rw [show List.filter (fun q => !(q.1 == k)) rest = eraseKey rest k from rfl, ih]
        by_cases h : k' = k
        · rw [if_pos h, if_pos h]
        · rw [if_neg h, if_neg h, lookup_cons,
            if_neg (show ¬p.1 = k' from by rw [hp]; exact fun hh => h hh.symm)]
      · rw [if_pos (by simp [hp])]
        rw [lookup_cons]
        by_cases hpk : p.1 = k'
        · rw [if_pos hpk, if_neg (fun hh => hp (by rw [hpk, hh])),
            lookup_cons, if_pos hpk]
        · rw [if_neg hpk,
            show List.filter (fun q => !(q.1 == k)) rest = eraseKey rest k from rfl, ih]
          by_cases h : k' = k
          · rw [if_pos h, if_pos h]
          · rw [if_neg h, if_neg h, lookup_cons, if_neg hpk]

theorem lookup_some_mem {m : NVMatch} {k v : ℤ} (h : lookup m k = some v) :
    (k, v) ∈ m := by
  induction m with
  | nil => rw [lookup_nil] at h; cases h
  | cons p rest ih =>
      rw [lookup_cons] at h
      by_cases hp : p.1 = k
      · rw [if_pos hp] at h
        exact List.mem_cons.mpr
          (Or.inl (Prod.ext_iff.mpr ⟨hp.symm, (Option.some_inj.mp h).symm⟩))
      · rw [if_neg hp] at h
        exact List.mem_cons.mpr (Or.inr (ih h))

theorem disjointKeys_lookup {m1 m2 : NVMatch} (h : DisjointKeys m1 m2) (k : ℤ) :
    lookup m1 k = none ∨ lookup m2 k = none := by
  rcases h1 : lookup m1 k with _ | v
  · exact Or.inl rfl
  · exact Or.inr (h ⟨k, v⟩ (lookup_some_mem h1))

/-- Modelled from the spec: a `SplitNViewMatch` (type declared outside src/) is
a partition of one `NViewMatch` into an observed part and an unobserved part;
being a partition, the two parts have disjoint key sets. -/
structure SplitNViewMatch where
  observedPart : NVMatch
  unobservedPart : NVMatch
  disj : DisjointKeys observedPart unobservedPart

/-- `Points::PointData`: per-track partition of the observing cameras into
already-reconstructed and still-pending observations. -/
structure PointData where
  reconstructed : NVMatch
  toReconstruct : NVMatch
deriving DecidableEq

/-- The `Points` track store: 3D coordinates, per-track observation data
(index-aligned), and the buffer of matches not yet turned into tracks. -/
structure Points where
  ptCoord : List Vec3
  ptData : List PointData
  matchesToReconstruct : List NVMatch
deriving DecidableEq

/-- `Points::numPts`. -/
def Points.numPts (s : Points) : ℕ := s.ptCoord.length

/-- The per-coordinate loop body of the pair overload of `Points::addPoints`
(sfm_data.cpp lines 300-313): for each new coordinate pull the referenced
pending match, seed `reconstructed` with the two cameras of the pair (their
observation indices read with `at`, which throws when absent, modelled by
`none`) and `toReconstruct` with the rest of the match.  Out-of-range vector
indexing is undefined behaviour in the source and is also modelled by `none`. -/
def seedTracks (a b : ℤ) (buffer : List NVMatch) :
    List Vec3 → List ℕ → Option (List (Vec3 × PointData))
  | [], _ => some []
  | _ :: _, [] => none
  | c :: cs, i :: is =>
      (buffer[i]?).bind (fun m =>
        (lookup m a).bind (fun v1 =>
          (lookup m b).bind (fun v2 =>
            (seedTracks a b buffer cs is).map
              (fun rest =>
                (c, ⟨assign (assign [] a v1) b v2,
                     eraseKey (eraseKey m a) b⟩) :: rest))))

/-- Decidable precondition under which `seedTracks` succeeds: every new
coordinate has a referenced pending match containing both cameras. -/
def seedPre (a b : ℤ) (buffer : List NVMatch) :
    List Vec3 → List ℕ → Bool
  | [], _ => true
  | _ :: _, [] => false
  | _ :: cs, i :: is =>
      (match buffer[i]? with
       | none => false
       | some m => (lookup m a).isSome && (lookup m b).isSome) &&
      seedPre a b buffer cs is

/-- Modelled from the spec: `filterOutOutliers` (defined outside src/) removes
the entries of the buffer at the given indices, preserving the order of the
remaining entries. -/
def filterOutOutliers (idxs : List ℕ) (buffer : List NVMatch) : List NVMatch :=
  (buffer.enum.filter (fun p => !(idxs.contains p.1))).map Prod.snd

/-- `Points::addPoints(camsIdxs, matchesToReconstructIdxs, coord)`
(sfm_data.cpp lines 293-315). -/
def Points.addPointsPair (ab : ℤ × ℤ) (idxs : List ℕ) (coord : List Vec3)
    (s : Points) : Option Points :=
  (seedTracks ab.1 ab.2 s.matchesToReconstruct coord idxs).map
    (fun seeded =>
      { ptCoord := s.ptCoord ++ seeded.map Prod.fst,
        ptData := s.ptData ++ seeded.map Prod.snd,
        matchesToReconstruct := filterOutOutliers idxs s.matchesToReconstruct })

/-- The loop of the bulk overload `Points::addPoints(pointCoord, pointViews)`
(sfm_data.cpp lines 316-328); reading `pointViews[i]` past the end is
undefined behaviour in the source, modelled by `none`. -/
def seedSplit : List Vec3 → List SplitNViewMatch →
    Option (List (Vec3 × PointData))
  | [], _ => some []
  | _ :: _, [] => none
  | c :: cs, v :: vs =>
      (seedSplit cs vs).map
        (fun rest => (c, ⟨v.observedPart, v.unobservedPart⟩) :: rest)

/-- `Points::addPoints(pointCoord, pointViews)` (sfm_data.cpp lines 316-328). -/
def Points.addPointsSplit (coord : List Vec3) (views : List SplitNViewMatch)
    (s : Points) : Option Points :=
  (seedSplit coord views).map
    (fun seeded =>
      { ptCoord := s.ptCoord ++ seeded.map Prod.fst,
        ptData := s.ptData ++ seeded.map Prod.snd,
        matchesToReconstruct := s.matchesToReconstruct })

/-- Modelled from the spec: `filterVector` (defined outside src/) compacts a
vector by a keep-mask, retaining exactly the elements whose mask entry is true
and preserving their relative order. -/
def filterVector {α : Type} (keep : List Bool) (v : List α) : List α :=
  ((keep.zip v).filter Prod.fst).map Prod.snd

/-- The positions at which a keep-mask is true, in increasing order; used to
state what `removePoints` retains. -/
def trueIdxs : List Bool → List ℕ
  | [] => []
  | b :: rest =>
      if b then 0 :: (trueIdxs rest).map Nat.succ
      else (trueIdxs rest).map Nat.succ

/-- `Points::removePoints(keep)` (sfm_data.cpp lines 330-334). -/
def Points.removePoints (keep : List Bool) (s : Points) : Points :=
  { s with ptCoord := filterVector keep s.ptCoord,
           ptData := filterVector keep s.ptData }

/-- The loop of the unconditional `Points::markCamAsReconstructed(camIdx)`
(sfm_data.cpp lines 339-346): each track's pending entry for `camIdx` is read
with `at` (which throws when absent, modelled by `none`), emplaced into
`reconstructed` and erased from `toReconstruct`. -/
def markEntries (camIdx : ℤ) : List PointData → Option (List PointData)
  | [] => some []
  | pd :: rest =>
      (lookup pd.toReconstruct camIdx).bind (fun v =>
        (markEntries camIdx rest).map
          (fun r => (⟨emplace pd.reconstructed camIdx v,
                      eraseKey pd.toReconstruct camIdx⟩ : PointData) :: r))

/-- `Points::markCamAsReconstructed(camIdx)` (sfm_data.cpp lines 339-346). -/
def Points.markCamAsReconstructed1 (camIdx : ℤ) (s : Points) : Option Points :=
  (markEntries camIdx s.ptData).map (fun pd => { s with ptData := pd })

/-- First loop of the two-tier `Points::markCamAsReconstructed`
(sfm_data.cpp lines 351-355): for each inlier index, the referenced track
gains `camIdx` in `reconstructed` with its pending observation index.
Out-of-range indices are undefined behaviour in the source and a missing
pending entry makes `at` throw; both are modelled by `none`. -/
def applyInliers (camIdx : ℤ) (corrPts : List ℕ) :
    List PointData → List ℕ → Option (List PointData)
  | pd, [] => some pd
  | pd, i :: is =>
      (corrPts[i]?).bind (fun ptIdx =>
        (pd[ptIdx]?).bind (fun entry =>
          (lookup entry.toReconstruct camIdx).bind (fun v =>
            applyInliers camIdx corrPts
              (pd.set ptIdx ⟨emplace entry.reconstructed camIdx v,
                             entry.toReconstruct⟩) is)))

/-- Second loop of the two-tier `Points::markCamAsReconstructed`
(sfm_data.cpp lines 356-360): every track referenced by `corrPts` loses
`camIdx` from `toReconstruct`. -/
def erasePhase (camIdx : ℤ) : List PointData → List ℕ → Option (List PointData)
  | pd, [] => some pd
  | pd, ptIdx :: rest =>
      (pd[ptIdx]?).bind (fun entry =>
        erasePhase camIdx
          (pd.set ptIdx ⟨entry.reconstructed,
                         eraseKey entry.toReconstruct camIdx⟩) rest)

/-- `Points::markCamAsReconstructed(camIdx, correspondingPoints,
correspondingPointsInliers)` (sfm_data.cpp lines 347-361). -/
def Points.markCamAsReconstructed2 (camIdx : ℤ) (corrPts inliers : List ℕ)
    (s : Points) : Option Points :=
  (applyInliers camIdx corrPts s.ptData inliers).bind (fun pd1 =>
    (erasePhase camIdx pd1 corrPts).map (fun pd2 => { s with ptData := pd2 }))

/-- The states of the `Points` store reachable by any sequence of the store's
mutating operations.  The store starts with no tracks; the pending-match
buffer is externally writable through the non-const accessor
`matchesToReconstruct()`, modelled by `init`/`setMatches`.  Operations whose
C++ execution throws (modelled by `none`) do not produce a new state. -/
inductive Reachable : Points → Prop
  | init (ms : List NVMatch) : Reachable ⟨[], [], ms⟩
  | setMatches {s : Points} (ms : List NVMatch) :
      Reachable s → Reachable { s with matchesToReconstruct := ms }
  | addPointsPair {s s' : Points} (ab : ℤ × ℤ) (idxs : List ℕ)
      (coord : List Vec3) :
      Reachable s → s.addPointsPair ab idxs coord = some s' → Reachable s'
  | addPointsSplit {s s' : Points} (coord : List Vec3)
      (views : List SplitNViewMatch) :
      Reachable s → s.addPointsSplit coord views = some s' → Reachable s'
  | removePoints {s : Points} (keep : List Bool) :
      Reachable s → Reachable (s.removePoints keep)
  | mark1 {s s' : Points} (camIdx : ℤ) :
      Reachable s → s.markCamAsReconstructed1 camIdx = some s' → Reachable s'
  | mark2 {s s' : Points} (camIdx : ℤ) (corrPts inliers : List ℕ) :
      Reachable s →
      s.markCamAsReconstructed2 camIdx corrPts inliers = some s' → Reachable s'

/-- The base `Camera`: image reference with dimensions, detected keypoints and
their descriptors (descriptor columns modelled as rational lists). -/
structure Camera where
  imgFilename : String
  imgWidth : ℤ
  imgHeight : ℤ
  keys : List Vec2
  descr : List (List ℚ)
deriving DecidableEq

/-- Modelled from the spec: the parameter-vector layout constants declared in
the header (outside src/) follow the fixed order `[rotation(3), center(3),
focal(1)]`, extended by two radial coefficients for the radial variant. -/
def rotIdx : ℕ := 0

/-- Index of the camera center block in the parameter vector. -/
def CIdx : ℕ := 3

/-- Index of the focal length in the parameter vector. -/
def fIdx : ℕ := 6

/-- Index of the radial-distortion block in the radial parameter vector. -/
def radIdx : ℕ := 7

/-- `StandardCamera::nParams_` (7 scalars). -/
def nParamsStd : ℕ := 7

/-- `StandardCameraRadial::nParams_` (9 scalars). -/
def nParamsRad : ℕ := 9

/-- `StandardCamera`: pinhole camera with center `C`, axis-angle rotation
(the Eigen `AngleAxisd` stores the angle and the axis separately), focal
length `f` and fixed principal point `x0`. -/
structure StandardCamera extends Camera where
  C : Vec3
  rotAngle : ℚ
  rotAxis : Vec3
  f : ℚ
  x0 : Vec2
  paramsConstraints : List ℚ
  paramsConstraintsWeights : List ℚ
deriving DecidableEq

/-- The `StandardCamera` constructor (sfm_data.cpp lines 62-69): the image
dimensions come from the external image probe (parameters here), the center is
zero, the focal length is zero, the soft constraints are all zero, and the
principal point is the image center.  The Eigen `AngleAxisd` member is left
default-initialized (indeterminate), modelled by taking the initial angle and
axis as parameters. -/
def mkStandardCamera (imgFilename : String) (w h : ℤ) (keys : List Vec2)
    (descr : List (List ℚ)) (rotAngle0 : ℚ) (rotAxis0 : Vec3) :
    StandardCamera :=
  { imgFilename := imgFilename, imgWidth := w, imgHeight := h,
    keys := keys, descr := descr,
    C := (0, 0, 0), rotAngle := rotAngle0, rotAxis := rotAxis0, f := 0,
    x0 := (((w : ℚ) - 1) / 2, ((h : ℚ) - 1) / 2),
    paramsConstraints := List.replicate nParamsStd 0,
    paramsConstraintsWeights := List.replicate nParamsStd 0 }

/-- `StandardCamera::setFocal` (sfm_data.cpp lines 79-82). -/
def StandardCamera.setFocal (fNew : ℚ) (c : StandardCamera) : StandardCamera :=
  { c with f := fNew }

/-- `StandardCamera::params` (sfm_data.cpp lines 142-150): writes the
angle-axis rotation vector (`angle * axis`), the center and the focal length
at their layout positions of a vector resized to `nParams_ = 7`. -/
def StandardCamera.params (c : StandardCamera) : List ℚ :=
  [c.rotAngle * c.rotAxis.1, c.rotAngle * c.rotAxis.2.1,
   c.rotAngle * c.rotAxis.2.2,
   c.C.1, c.C.2.1, c.C.2.2, c.f]

/-- `StandardCamera::setParams(const vector<double>&)` (sfm_data.cpp lines
151-166).  The C library `sqrt` is abstracted as the parameter `sqrt`;
out-of-range reads (undefined behaviour in the source) are modelled by
defaulting to 0 and excluded by the length preconditions of the theorems. -/
def StandardCamera.setParams (sqrt : ℚ → ℚ) (p : List ℚ) (c : StandardCamera) :
    StandardCamera :=
  let r : Vec3 := (p.getD rotIdx 0, p.getD (rotIdx + 1) 0, p.getD (rotIdx + 2) 0)
  let Cv : Vec3 := (p.getD CIdx 0, p.getD (CIdx + 1) 0, p.getD (CIdx + 2) 0)
  let sq : ℚ := r.1 * r.1 + r.2.1 * r.2.1 + r.2.2 * r.2.2
  let angle : ℚ := if sq = 0 then sq else sqrt sq
  let axis : Vec3 :=
    if sq = 0 then (1, 0, 0)
    else (r.1 / sqrt sq, r.2.1 / sqrt sq, r.2.2 / sqrt sq)
  { c with rotAngle := angle, rotAxis := axis, C := Cv, f := p.getD fIdx 0 }

/-- `StandardCamera::keyNormalized` (sfm_data.cpp lines 119-122): subtracts
the principal point from the stored key and divides by the focal length. -/
def StandardCamera.keyNormalized (c : StandardCamera) (i : ℕ) : Vec2 :=
  let k : Vec2 := c.keys.getD i (0, 0)
  ((k.1 - c.x0.1) / c.f, (k.2 - c.x0.2) / c.f)

/-- `StandardCameraRadial`: adds two forward radial-distortion coefficients
and four cached inverse coefficients. -/
structure StandardCameraRadial extends StandardCamera where
  radParams : ℚ × ℚ
  invRadParams : ℚ × ℚ × ℚ × ℚ
deriving DecidableEq

/-- The `StandardCameraRadial` constructor (sfm_data.cpp lines 200-210):
delegates to the `StandardCamera` constructor, extends the constraint vectors
by two zero entries and zeroes all distortion coefficients. -/
def mkStandardCameraRadial (imgFilename : String) (w h : ℤ) (keys : List Vec2)
    (descr : List (List ℚ)) (rotAngle0 : ℚ) (rotAxis0 : Vec3) :
    StandardCameraRadial :=
  let base := mkStandardCamera imgFilename w h keys descr rotAngle0 rotAxis0
  { base with
    paramsConstraints := base.paramsConstraints ++ [0, 0],
    paramsConstraintsWeights := base.paramsConstraintsWeights ++ [0, 0],
    radParams := (0, 0),
    invRadParams := (0, 0, 0, 0) }

/-- `StandardCameraRadial::params` (sfm_data.cpp lines 250-256): the base
7-vector followed by the two forward radial coefficients. -/
def StandardCameraRadial.params (c : StandardCameraRadial) : List ℚ :=
  c.toStandardCamera.params ++ [c.radParams.1, c.radParams.2]

/-- `StandardCameraRadial::setParams(const vector<double>&)` (sfm_data.cpp
lines 257-272): delegates to the base setter, reads the two radial
coefficients, and recomputes the cached inverse coefficients with
`approximateInverseRadialDistortion` (defined outside src/; the spec describes
it as an approximate polynomial fit over the maximum observable radius, so it
is abstracted as the parameter `approxInv`). -/
def StandardCameraRadial.setParams (sqrt : ℚ → ℚ)
    (approxInv : ℚ → List ℚ → ℚ × ℚ × ℚ × ℚ) (p : List ℚ)
    (c : StandardCameraRadial) : StandardCameraRadial :=
  let base := c.toStandardCamera.setParams sqrt p
  let rad : ℚ × ℚ := (p.getD radIdx 0, p.getD (radIdx + 1) 0)
  let radParamsFull : List ℚ := [0, rad.1, 0, rad.2]
  let xMax : ℚ := (c.imgWidth : ℚ) - c.x0.1
  let yMax : ℚ := (c.imgHeight : ℚ) - c.x0.2
  let maxRadius : ℚ := sqrt (xMax * xMax + yMax * yMax)
  { toStandardCamera := base,
    radParams := rad,
    invRadParams := approxInv maxRadius radParamsFull }

/-- The polymorphic camera collection element: the dynamic type of a stored
`Camera` is one of the three variants, and each variant's virtual `clone`
copies a value of exactly that variant (sfm_data.cpp lines 57-60, 74-77,
214-217). -/
inductive CameraVariant
  | base (c : Camera)
  | std (c : StandardCamera)
  | radial (c : StandardCameraRadial)
deriving DecidableEq

/-- `Camera::clone` and its overrides: a deep value copy of the same dynamic
variant. -/
def CameraVariant.clone (c : CameraVariant) : CameraVariant := c

/-- `Dataset` (sfm_data.cpp lines 372-436).  The type of the pairwise data
(`pair_umap<CameraPair>`, declared outside src/) is irrelevant to the claims
and kept as a type parameter; the registered-camera set `uset<int>` is a
finite set of indices. -/
structure Dataset (Pair : Type) where
  dir : String
  cams : List CameraVariant
  pairs : Pair
  reconstructedCams : Finset ℤ
  points : Points

/-- `Dataset::copyIn` (sfm_data.cpp lines 387-398): copies the directory,
pushes clones of the source's cameras onto the target's camera vector (which
is NOT cleared first) and value-copies pairs, registered set and points. -/
def Dataset.copyIn {Pair : Type} (target o : Dataset Pair) : Dataset Pair :=
  { dir := o.dir,
    cams := target.cams ++ o.cams.map CameraVariant.clone,
    pairs := o.pairs,
    reconstructedCams := o.reconstructedCams,
    points := o.points }

/-- The `Dataset` copy constructor (sfm_data.cpp lines 377-380): all members
are default-initialized (camera vector empty) before `copyIn` runs; the
default-constructed pairwise data is a parameter. -/
def Dataset.copyCtor {Pair : Type} (pairs0 : Pair) (o : Dataset Pair) :
    Dataset Pair :=
  Dataset.copyIn ⟨"", [], pairs0, ∅, ⟨[], [], []⟩⟩ o

/-- `Dataset::operator=` (sfm_data.cpp lines 382-386): runs `copyIn` on the
existing (not cleared) state. -/
def Dataset.copyAssign {Pair : Type} (target o : Dataset Pair) : Dataset Pair :=
  Dataset.copyIn target o

/-- Observable events of the batch `detectSiftGPU` loop
(features.cpp lines 53-62), in execution order. -/
inductive SiftEvent
  | detect (camPos : ℕ)
  | callback (done : ℕ)
deriving DecidableEq

/-- The camera loop of batch `detectSiftGPU` (features.cpp lines 53-62):
detect on each camera in order, then invoke the callback with the current
value of the `done` counter (incremented only afterwards) when both the
function pointer and the object pointer are non-null. -/
def detectLoop (cbSet : Bool) (detector : Camera → Camera) :
    ℕ → List Camera → List Camera × List SiftEvent
  | _, [] => ([], [])
  | done, c :: cs =>
      let rest := detectLoop cbSet detector (done + 1) cs
      (detector c :: rest.1,
       (SiftEvent.detect done ::
         (if cbSet then [SiftEvent.callback done] else [])) ++ rest.2)

/-- Batch `detectSiftGPU` (features.cpp lines 37-63): when detector-context
initialization fails the function returns at once; otherwise every camera is
processed sequentially.  Context creation/initialization and the per-camera
effect of the external detector are parameters (`initSuccess`, `detector`);
`cbFnSet`/`cbObjSet` model the two NULL tests on the callback pointers.  The
function returns the updated cameras and the event trace; its C++ return type
is `void`, so it carries no error signal. -/
def detectSiftGPUBatch (initSuccess : Bool) (cbFnSet cbObjSet : Bool)
    (detector : Camera → Camera) (cams : List Camera) :
    List Camera × List SiftEvent :=
  if initSuccess then detectLoop (cbFnSet && cbObjSet) detector 0 cams
  else (cams, [])

theorem detectLoop_trace (cbSet : Bool) (det : Camera → Camera)
    (cams : List Camera) : ∀ d : ℕ,
    (detectLoop cbSet det d cams).2 =
      (List.range' d cams.length).flatMap
        (fun i => SiftEvent.detect i ::
          (if cbSet then [SiftEvent.callback i] else [])) := by
  induction cams with
  | nil => intro d; rfl
  | cons c cs ih =>
      intro d
      rw [List.length_cons, List.range'_succ, List.flatMap_cons]
      simp only [detectLoop, ih (d + 1)]

/-- C8: if detector-context initialization fails in batch `detectSiftGPU`, the
batch is abandoned: the cameras are returned unchanged (so previously empty
cameras still report zero features), the event trace is empty (no camera is
processed and no progress callback fires), and the function — whose C++
return type is `void` — signals no error. -/
theorem detectSiftGPU_initFailure_abandonsBatch (cbFnSet cbObjSet : Bool)
    (det : Camera → Camera) (cams : List Camera) :
    detectSiftGPUBatch false cbFnSet cbObjSet det cams = (cams, []) := rfl

/-- C7 counterexample: for a successfully initialized one-camera batch with
both callback pointers non-null, the single callback invocation receives 0 as
its second argument, although at that moment one camera's detection has
completed — the completed count is 1, not 0 (the `done` counter is passed
before it is incremented, features.cpp lines 59-61). -/
theorem detectSiftGPU_callbackArg_ne_completedCount :
    (detectSiftGPUBatch true true true (fun c => c)
        [⟨"img", 2, 2, [], []⟩]).2 = [SiftEvent.detect 0, SiftEvent.callback 0] ∧
    (detectSiftGPUBatch true true true (fun c => c)
        [⟨"img", 2, 2, [], []⟩]).2 ≠ [SiftEvent.detect 0, SiftEvent.callback 1] := by
  exact ⟨rfl, by decide⟩

/-- C7 (amended): during a successfully initialized batch `detectSiftGPU`,
the progress callback is invoked exactly once per camera, immediately after
that camera's detection completes, with the number of previously completed
cameras (the just-completed camera's zero-based position) as its second
argument; and no callback fires unless both the function pointer and the
object pointer are non-null. -/
theorem detectSiftGPU_callback_oncePerCamera (cbFnSet cbObjSet : Bool)
    (det : Camera → Camera) (cams : List Camera) :
    (detectSiftGPUBatch true cbFnSet cbObjSet det cams).2 =
      (List.range cams.length).flatMap
        (fun i => SiftEvent.detect i ::
          (if cbFnSet && cbObjSet then [SiftEvent.callback i] else [])) := by
  rw [detectSiftGPUBatch, if_pos rfl, detectLoop_trace, List.range_eq_range']

/-- C10: `StandardCamera::keyNormalized(i)` divides the
principal-point-offset key componentwise by the focal length `f_`, and `f_`
is initialized to 0 by the constructors of both `StandardCamera` and
`StandardCameraRadial`; hence on any camera on which no focal length has been
set since construction the divisor of `keyNormalized` is zero. -/
theorem keyNormalized_fresh_divides_by_zero :
    ∀ (fn : String) (w h : ℤ) (keys : List Vec2) (descr : List (List ℚ))
      (a0 : ℚ) (ax0 : Vec3),
      (mkStandardCamera fn w h keys descr a0 ax0).f = 0 ∧
      (mkStandardCameraRadial fn w h keys descr a0 ax0).f = 0 ∧
      (∀ (c : StandardCamera) (i : ℕ),
        c.keyNormalized i =
          (((c.keys.getD i (0, 0)).1 - c.x0.1) / c.f,
           ((c.keys.getD i (0, 0)).2 - c.x0.2) / c.f)) :=
  fun _ _ _ _ _ _ _ => ⟨rfl, rfl, fun _ _ => rfl⟩

theorem sum_sq_eq_zero {a b c : ℚ} (h : a * a + b * b + c * c = 0) :
    a = 0 ∧ b = 0 ∧ c = 0 := by
  have ha := mul_self_nonneg a
  have hb := mul_self_nonneg b
  have hc := mul_self_nonneg c
  refine ⟨mul_self_eq_zero.mp ?_, mul_self_eq_zero.mp ?_,
    mul_self_eq_zero.mp ?_⟩ <;> nlinarith

theorem list_eq_getD_of_length_seven (p : List ℚ) (h : p.length = 7) :
    p = [p.getD 0 0, p.getD 1 0, p.getD 2 0, p.getD 3 0, p.getD 4 0,
         p.getD 5 0, p.getD 6 0] := by
  rcases p with _ | ⟨a0, p⟩
  · simp only [List.length_nil] at h; omega
  rcases p with _ | ⟨a1, p⟩
  · simp only [List.length_cons, List.length_nil] at h; omega
  rcases p with _ | ⟨a2, p⟩
  · simp only [List.length_cons, List.length_nil] at h; omega
  rcases p with _ | ⟨a3, p⟩
  · simp only [List.length_cons, List.length_nil] at h; omega
  rcases p with _ | ⟨a4, p⟩
  · simp only [List.length_cons, List.length_nil] at h; omega
  rcases p with _ | ⟨a5, p⟩
  · simp only [List.length_cons, List.length_nil] at h; omega
  rcases p with _ | ⟨a6, p⟩
  · simp only [List.length_cons, List.length_nil] at h; omega
  have hp : p.length = 0 := by simp only [List.length_cons] at h; omega
  obtain rfl := List.length_eq_zero.mp hp
  rfl

theorem list_eq_getD_of_length_nine (p : List ℚ) (h : p.length = 9) :
    p = [p.getD 0 0, p.getD 1 0, p.getD 2 0, p.getD 3 0, p.getD 4 0,
         p.getD 5 0, p.getD 6 0, p.getD 7 0, p.getD 8 0] := by
  rcases p with _ | ⟨a0, p⟩
  · simp only [List.length_nil] at h; omega
  rcases p with _ | ⟨a1, p⟩
  · simp only [List.length_cons, List.length_nil] at h; omega
  rcases p with _ | ⟨a2, p⟩
  · simp only [List.length_cons, List.length_nil] at h; omega
  rcases p with _ | ⟨a3, p⟩
  · simp only [List.length_cons, List.length_nil] at h; omega
  rcases p with _ | ⟨a4, p⟩
  · simp only [List.length_cons, List.length_nil] at h; omega
  rcases p with _ | ⟨a5, p⟩
  · simp only [List.length_cons, List.length_nil] at h; omega
  rcases p with _ | ⟨a6, p⟩
  · simp only [List.length_cons, List.length_nil] at h; omega
  rcases p with _ | ⟨a7, p⟩
  · simp only [List.length_cons, List.length_nil] at h; omega
  rcases p with _ | ⟨a8, p⟩
  · simp only [List.length_cons, List.length_nil] at h; omega
  have hp : p.length = 0 := by simp only [List.length_cons] at h; omega
  obtain rfl := List.length_eq_zero.mp hp
  rfl

theorem setParams_params_core (sqrt : ℚ → ℚ)
    (hs : ∀ x : ℚ, 0 < x → sqrt x ≠ 0) (c : StandardCamera) (p : List ℚ) :
    (c.setParams sqrt p).params =
      [p.getD 0 0, p.getD 1 0, p.getD 2 0, p.getD 3 0, p.getD 4 0,
       p.getD 5 0, p.getD 6 0] := by
  simp only [StandardCamera.setParams, StandardCamera.params, rotIdx, CIdx,
    fIdx, List.getD_eq_getElem?_getD]
  by_cases hsq : (p[0]?).getD 0 * (p[0]?).getD 0 + (p[1]?).getD 0 * (p[1]?).getD 0 +
      (p[2]?).getD 0 * (p[2]?).getD 0 = 0
  · obtain ⟨h0, h1, h2⟩ := sum_sq_eq_zero hsq
    simp [hsq, h0, h1, h2]
  · have hpos : (0 : ℚ) < (p[0]?).getD 0 * (p[0]?).getD 0 +
        (p[1]?).getD 0 * (p[1]?).getD 0 + (p[2]?).getD 0 * (p[2]?).getD 0 :=
      lt_of_le_of_ne
        (add_nonneg (add_nonneg (mul_self_nonneg _) (mul_self_nonneg _))
          (mul_self_nonneg _)) (Ne.symm hsq)
    have hne := hs _ hpos
    have key : ∀ x : ℚ,
        sqrt ((p[0]?).getD 0 * (p[0]?).getD 0 + (p[1]?).getD 0 * (p[1]?).getD 0 +
          (p[2]?).getD 0 * (p[2]?).getD 0) *
          (x / sqrt ((p[0]?).getD 0 * (p[0]?).getD 0 + (p[1]?).getD 0 * (p[1]?).getD 0 +
            (p[2]?).getD 0 * (p[2]?).getD 0)) = x :=
      fun x => by rw [mul_comm, div_mul_cancel₀ _ hne]
    simp [hsq, key]

/-- C6: for every camera variant (`StandardCamera` with the 7-parameter layout
rotation(3), center(3), focal(1); `StandardCameraRadial` with 9 parameters),
`setParams(p)` followed by `params(&p2)` returns exactly the input vector.
Scalars are modelled as exact rationals and the C library `sqrt` is abstracted
by any function positive on positive inputs; the round trip holds exactly in
this arithmetic (the stored angle-axis pair is divided and multiplied by the
same scalar), including the zero-rotation special case. -/
theorem setParams_params_roundtrip (sqrt : ℚ → ℚ)
    (hs : ∀ x : ℚ, 0 < x → sqrt x ≠ 0) :
    (∀ (c : StandardCamera) (p : List ℚ), p.length = nParamsStd →
        (c.setParams sqrt p).params = p) ∧
    (∀ (approxInv : ℚ → List ℚ → ℚ × ℚ × ℚ × ℚ) (c : StandardCameraRadial)
        (p : List ℚ), p.length = nParamsRad →
        (c.setParams sqrt approxInv p).params = p) := by
  constructor
  · intro c p hlen
    rw [setParams_params_core sqrt hs c p]
    exact (list_eq_getD_of_length_seven p hlen).symm
  · intro approxInv c p hlen
    simp only [StandardCameraRadial.params, StandardCameraRadial.setParams,
      radIdx]
    rw [setParams_params_core sqrt hs]
    simp only [List.cons_append, List.nil_append]
    exact (list_eq_getD_of_length_nine p hlen).symm

/-- Witness for C6 at a concrete camera and concrete parameter vectors,
instantiating the abstracted square root with the identity function. -/
theorem setParams_params_roundtrip_witness :
    ((mkStandardCamera "img" 3 3 [] [] 0 (1, 0, 0)).setParams (fun x => x)
        [0, 0, 0, 1, 2, 3, 5]).params = [0, 0, 0, 1, 2, 3, 5] ∧
    ((mkStandardCameraRadial "img" 3 3 [] [] 0 (1, 0, 0)).setParams
        (fun x => x) (fun _ _ => (0, 0, 0, 0))
        [0, 0, 0, 1, 2, 3, 5, 7, 9]).params = [0, 0, 0, 1, 2, 3, 5, 7, 9] :=
  ⟨(setParams_params_roundtrip (fun x => x) (fun _ hx => ne_of_gt hx)).1 _ _ rfl,
   (setParams_params_roundtrip (fun x => x) (fun _ hx => ne_of_gt hx)).2
     _ _ _ rfl⟩

theorem markEntries_spec (camIdx : ℤ) (pd : List PointData)
    (hall : ∀ e ∈ pd, (lookup e.toReconstruct camIdx).isSome) :
    ∃ pd', markEntries camIdx pd = some pd' ∧ pd'.length = pd.length ∧
      ∀ (j : ℕ) (e e' : PointData), pd[j]? = some e → pd'[j]? = some e' →
        e' = ⟨emplace e.reconstructed camIdx
                ((lookup e.toReconstruct camIdx).getD 0),
              eraseKey e.toReconstruct camIdx⟩ := by
  induction pd with
  | nil =>
      refine ⟨[], rfl, rfl, ?_⟩
      intro j e e' h
      simp at h
  | cons e0 rest ih =>
      have h0 : (lookup e0.toReconstruct camIdx).isSome :=
        hall e0 (List.mem_cons_self e0 rest)
      obtain ⟨v, hv⟩ := Option.isSome_iff_exists.mp h0
      obtain ⟨rest', hrest, hlen, hchar⟩ :=
        ih (fun e he => hall e (List.mem_cons_of_mem e0 he))
      refine ⟨⟨emplace e0.reconstructed camIdx v,
               eraseKey e0.toReconstruct camIdx⟩ :: rest', ?_, ?_, ?_⟩
      · rw [markEntries, hv, hrest]; rfl
      · simp [hlen]
      · intro j e e' he he'
        match j with
        | 0 =>
            rw [List.getElem?_cons_zero] at he he'
            obtain rfl := Option.some_inj.mp he
            obtain rfl := (Option.some_inj.mp he').symm
            rw [hv]
            rfl
        | j + 1 =>
            rw [List.getElem?_cons_succ] at he he'
            exact hchar j e e' he he'

/-- C3 counterexample: the claim asserts a postcondition after calling the
unconditional `markCamAsReconstructed(camIdx)` on ANY `Points` state, but on a
state holding one track with no pending observation of camera 0 the loop body
calls `toReconstruct.at(0)`, which throws `std::out_of_range` (modelled by
`none`): the call produces no resulting state at all. -/
theorem markCamAsReconstructed1_throws_on_track_without_cam :
    Points.markCamAsReconstructed1 0 ⟨[(0, 0, 0)], [⟨[], []⟩], []⟩ = none ∧
    ¬ ∃ s' : Points,
        Points.markCamAsReconstructed1 0 ⟨[(0, 0, 0)], [⟨[], []⟩], []⟩
          = some s' := by
  constructor
  · rfl
  · rintro ⟨s', hs⟩
    rw [show Points.markCamAsReconstructed1 0 ⟨[(0, 0, 0)], [⟨[], []⟩], []⟩
        = none from rfl] at hs
    cases hs

/-- C3 (amended): after calling the unconditional
`markCamAsReconstructed(camIdx)` on any `Points` state in which every track
has `camIdx` pending in `toReconstruct` (otherwise `toReconstruct.at` throws
and no state results), every track's `toReconstruct` contains no entry for
`camIdx`, every track that was not already showing `camIdx` as reconstructed
has it promoted with its pending observation index into `reconstructed`, and
nothing else changes. -/
theorem markCamAsReconstructed1_spec (camIdx : ℤ) (s : Points)
    (hall : ∀ e ∈ s.ptData, (lookup e.toReconstruct camIdx).isSome) :
    ∃ s', s.markCamAsReconstructed1 camIdx = some s' ∧
      s'.ptCoord = s.ptCoord ∧
      s'.matchesToReconstruct = s.matchesToReconstruct ∧
      s'.ptData.length = s.ptData.length ∧
      ∀ (j : ℕ) (e e' : PointData), s.ptData[j]? = some e →
        s'.ptData[j]? = some e' →
          lookup e'.toReconstruct camIdx = none ∧
          (lookup e.reconstructed camIdx = none →
            lookup e'.reconstructed camIdx = lookup e.toReconstruct camIdx) ∧
          ∀ k : ℤ, k ≠ camIdx →
            lookup e'.toReconstruct k = lookup e.toReconstruct k ∧
            lookup e'.reconstructed k = lookup e.reconstructed k := by
  obtain ⟨pd', hpd, hlen, hchar⟩ := markEntries_spec camIdx s.ptData hall
  refine ⟨{ s with ptData := pd' }, ?_, rfl, rfl, hlen, ?_⟩
  · rw [Points.markCamAsReconstructed1, hpd]; rfl
  · intro j e e' he he'
    obtain rfl := hchar j e e' he he'
    have hmem : e ∈ s.ptData := List.getElem?_mem he
    obtain ⟨v, hv⟩ := Option.isSome_iff_exists.mp (hall e hmem)
    refine ⟨?_, ?_, ?_⟩
    · rw [show (⟨emplace e.reconstructed camIdx
          ((lookup e.toReconstruct camIdx).getD 0),
          eraseKey e.toReconstruct camIdx⟩ : PointData).toReconstruct
          = eraseKey e.toReconstruct camIdx from rfl,
        lookup_eraseKey, if_pos rfl]
    · intro hnone
      rw [show (⟨emplace e.reconstructed camIdx
          ((lookup e.toReconstruct camIdx).getD 0),
          eraseKey e.toReconstruct camIdx⟩ : PointData).reconstructed
          = emplace e.reconstructed camIdx
              ((lookup e.toReconstruct camIdx).getD 0) from rfl,
        lookup_emplace, if_pos rfl, hnone, hv]
      rfl
    · intro k hk
      constructor
      · rw [show (⟨emplace e.reconstructed camIdx
            ((lookup e.toReconstruct camIdx).getD 0),
            eraseKey e.toReconstruct camIdx⟩ : PointData).toReconstruct
            = eraseKey e.toReconstruct camIdx from rfl,
          lookup_eraseKey, if_neg hk]
      · rw [show (⟨emplace e.reconstructed camIdx
            ((lookup e.toReconstruct camIdx).getD 0),
            eraseKey e.toReconstruct camIdx⟩ : PointData).reconstructed
            = emplace e.reconstructed camIdx
                ((lookup e.toReconstruct camIdx).getD 0) from rfl,
          lookup_emplace, if_neg hk]

/-- Witness for the amended C3 at a concrete one-track state in which camera 5
is pending with observation index 7: the call succeeds, afterwards the track
has no pending entry for camera 5 and its reconstructed map sends camera 5 to
the formerly pending index 7. -/
theorem markCamAsReconstructed1_spec_witness :
    Points.markCamAsReconstructed1 5 ⟨[(1, 2, 3)], [⟨[(1, 10)], [(5, 7)]⟩], []⟩
      = some ⟨[(1, 2, 3)], [⟨[(1, 10), (5, 7)], []⟩], []⟩ ∧
    lookup (⟨[(1, 10), (5, 7)], []⟩ : PointData).toReconstruct 5 = none ∧
    lookup (⟨[(1, 10), (5, 7)], []⟩ : PointData).reconstructed 5
      = lookup (⟨[(1, 10)], [(5, 7)]⟩ : PointData).toReconstruct 5 := by
  obtain ⟨s', h1, h2, h3, h4, h5⟩ :=
    markCamAsReconstructed1_spec 5 ⟨[(1, 2, 3)], [⟨[(1, 10)], [(5, 7)]⟩], []⟩
      (by decide)
  have hcomp : Points.markCamAsReconstructed1 5
      ⟨[(1, 2, 3)], [⟨[(1, 10)], [(5, 7)]⟩], []⟩
      = some ⟨[(1, 2, 3)], [⟨[(1, 10), (5, 7)], []⟩], []⟩ := by decide
  have hs : s' = ⟨[(1, 2, 3)], [⟨[(1, 10), (5, 7)], []⟩], []⟩ := by
    rw [hcomp] at h1
    exact (Option.some_inj.mp h1).symm
  subst hs
  have hj := h5 0 ⟨[(1, 10)], [(5, 7)]⟩ ⟨[(1, 10), (5, 7)], []⟩
    (by decide) (by decide)
  exact ⟨h1, hj.1, hj.2.1 (by decide)⟩

theorem seedTracks_spec (a b : ℤ) (buffer : List NVMatch) (coord : List Vec3)
    (idxs : List ℕ) (hpre : seedPre a b buffer coord idxs = true) :
    ∃ seeded, seedTracks a b buffer coord idxs = some seeded ∧
      seeded.map Prod.fst = coord ∧
      ∀ i : ℕ, i < coord.length →
        ∃ (midx : ℕ) (m : NVMatch) (v1 v2 : ℤ),
          idxs[i]? = some midx ∧ buffer[midx]? = some m ∧
          lookup m a = some v1 ∧ lookup m b = some v2 ∧
          (seeded.map Prod.snd)[i]? =
            some ⟨assign (assign [] a v1) b v2, eraseKey (eraseKey m a) b⟩ := by
  induction coord generalizing idxs with
  | nil =>
      refine ⟨[], rfl, rfl, ?_⟩
      intro i hi
      simp at hi
  | cons c cs ih =>
      match idxs with
      | [] => rw [seedPre] at hpre; cases hpre
      | i0 :: is =>
          rw [seedPre, Bool.and_eq_true] at hpre
          obtain ⟨h1, h2⟩ := hpre
          rcases hb : buffer[i0]? with _ | m
          · rw [hb] at h1; cases h1
          · rw [hb, Bool.and_eq_true] at h1
            obtain ⟨ha, hbb⟩ := h1
            obtain ⟨v1, hv1⟩ := Option.isSome_iff_exists.mp ha
            obtain ⟨v2, hv2⟩ := Option.isSome_iff_exists.mp hbb
            obtain ⟨rest, hrest, hfst, hidx⟩ := ih is h2
            refine ⟨(c, ⟨assign (assign [] a v1) b v2,
                eraseKey (eraseKey m a) b⟩) :: rest, ?_, ?_, ?_⟩
            · rw [seedTracks]
              simp [hb, hv1, hv2, hrest]
            · simp [hfst]
            · intro i hi
              match i with
              | 0 =>
                  exact ⟨i0, m, v1, v2, by simp, hb, hv1, hv2, by simp⟩
              | i + 1 =>
                  obtain ⟨midx, m', v1', v2', hx1, hx2, hx3, hx4, hx5⟩ :=
                    hidx i (by simpa using Nat.lt_of_succ_lt_succ hi)
                  refine ⟨midx, m', v1', v2', ?_, hx2, hx3, hx4, ?_⟩
                  · rw [List.getElem?_cons_succ]; exact hx1
                  · rw [List.map_cons, List.getElem?_cons_succ]; exact hx5

/-- C4: `Points::addPoints(cameraPair, matchIndices, coordinates)`: when both
cameras of the pair have entries in each referenced pending match (and the
referenced indices are valid — otherwise `at` throws or indexing is undefined
behaviour), the call succeeds; the old tracks are untouched, the coordinates
are appended, each appended track's `reconstructed` holds exactly the two
cameras of the pair with the observation indices from the referenced match,
its `toReconstruct` equals the remainder of that match, and the consumed
matches are removed from the `matchesToReconstruct` buffer (order of the
survivors preserved). -/
theorem addPointsPair_spec (ab : ℤ × ℤ) (idxs : List ℕ) (coord : List Vec3)
    (s : Points)
    (hpre : seedPre ab.1 ab.2 s.matchesToReconstruct coord idxs = true) :
    ∃ s', s.addPointsPair ab idxs coord = some s' ∧
      s'.ptCoord = s.ptCoord ++ coord ∧
      s'.ptData.length = s.ptData.length + coord.length ∧
      (∀ j : ℕ, j < s.ptData.length → s'.ptData[j]? = s.ptData[j]?) ∧
      (∀ i : ℕ, i < coord.length →
        ∃ (midx : ℕ) (m : NVMatch) (v1 v2 : ℤ),
          idxs[i]? = some midx ∧ s.matchesToReconstruct[midx]? = some m ∧
          lookup m ab.1 = some v1 ∧ lookup m ab.2 = some v2 ∧
          ∃ e : PointData, s'.ptData[s.ptData.length + i]? = some e ∧
            (∀ k : ℤ, lookup e.reconstructed k =
              if k = ab.2 then some v2
              else if k = ab.1 then some v1 else none) ∧
            (∀ k : ℤ, lookup e.toReconstruct k =
              if k = ab.1 ∨ k = ab.2 then none else lookup m k)) ∧
      s'.matchesToReconstruct =
        (s.matchesToReconstruct.enum.filter
          (fun q => !(idxs.contains q.1))).map Prod.snd := by
  obtain ⟨seeded, hseed, hfst, hidx⟩ :=
    seedTracks_spec ab.1 ab.2 s.matchesToReconstruct coord idxs hpre
  have hslen : seeded.length = coord.length := by
    rw [← hfst, List.length_map]
  refine ⟨⟨s.ptCoord ++ seeded.map Prod.fst, s.ptData ++ seeded.map Prod.snd,
      filterOutOutliers idxs s.matchesToReconstruct⟩, ?_, ?_, ?_, ?_, ?_, rfl⟩
  · rw [Points.addPointsPair, hseed]; rfl
  · simp [hfst]
  · simp [hslen]
  · intro j hj
    exact List.getElem?_append_left hj
  · intro i hi
    obtain ⟨midx, m, v1, v2, hx1, hx2, hx3, hx4, hx5⟩ := hidx i hi
    refine ⟨midx, m, v1, v2, hx1, hx2, hx3, hx4,
      ⟨assign (assign [] ab.1 v1) ab.2 v2,
       eraseKey (eraseKey m ab.1) ab.2⟩, ?_, ?_, ?_⟩
    · show (s.ptData ++ seeded.map Prod.snd)[s.ptData.length + i]? = _
      rw [List.getElem?_append_right (Nat.le_add_right _ _)]
      simpa using hx5
    · intro k
      show lookup (assign (assign [] ab.1 v1) ab.2 v2) k = _
      rw [lookup_assign, lookup_assign, lookup_nil]
    · intro k
      show lookup (eraseKey (eraseKey m ab.1) ab.2) k = _
      rw [lookup_eraseKey, lookup_eraseKey]
      by_cases hk2 : k = ab.2
      · rw [if_pos hk2, if_pos (Or.inr hk2)]
      · rw [if_neg hk2]
        by_cases hk1 : k = ab.1
        · rw [if_pos hk1, if_pos (Or.inl hk1)]
        · rw [if_neg hk1,
            if_neg (by rintro (h | h) <;> [exact hk1 h; exact hk2 h])]

/-- Witness for C4: the spec scenario — one pending match
camA(0) to 10, camB(1) to 20, camC(2) to 30; seeding one track via the pair
(camA, camB) consumes the match: the coordinates are appended and the
consumed match is removed from the buffer. -/
theorem addPointsPair_spec_witness :
    Points.addPointsPair (0, 1) [0] [(1, 2, 3)]
        ⟨[], [], [[(0, 10), (1, 20), (2, 30)]]⟩
      = some ⟨[(1, 2, 3)], [⟨[(0, 10), (1, 20)], [(2, 30)]⟩], []⟩ ∧
    (⟨[(1, 2, 3)], [⟨[(0, 10), (1, 20)], [(2, 30)]⟩], []⟩ : Points).ptCoord
      = ([] : List Vec3) ++ [(1, 2, 3)] ∧
    (⟨[(1, 2, 3)], [⟨[(0, 10), (1, 20)], [(2, 30)]⟩], []⟩ : Points).matchesToReconstruct
      = (([[(0, 10), (1, 20), (2, 30)]] : List NVMatch).enum.filter
          (fun q => !(([0] : List ℕ).contains q.1))).map Prod.snd := by
  obtain ⟨s', h1, h2, h3, h4, h5, h6⟩ :=
    addPointsPair_spec (0, 1) [0] [(1, 2, 3)]
      ⟨[], [], [[(0, 10), (1, 20), (2, 30)]]⟩ (by decide)
  have hcomp : Points.addPointsPair (0, 1) [0] [(1, 2, 3)]
      ⟨[], [], [[(0, 10), (1, 20), (2, 30)]]⟩
      = some ⟨[(1, 2, 3)], [⟨[(0, 10), (1, 20)], [(2, 30)]⟩], []⟩ := by decide
  have hs : s' = ⟨[(1, 2, 3)], [⟨[(0, 10), (1, 20)], [(2, 30)]⟩], []⟩ := by
    rw [hcomp] at h1
    exact (Option.some_inj.mp h1).symm
  subst hs
  exact ⟨h1, h2, h6⟩

theorem emplace_emplace_self (m : NVMatch) (k v w : ℤ) :
    emplace (emplace m k v) k w = emplace m k v := by
  rw [show emplace (emplace m k v) k w
      = if (lookup (emplace m k v) k).isSome then emplace m k v
        else emplace m k v ++ [(k, w)] from rfl,
    lookup_emplace, if_pos rfl]
  rfl

theorem eraseKey_eraseKey_self (m : NVMatch) (k : ℤ) :
    eraseKey (eraseKey m k) k = eraseKey m k := by
  unfold eraseKey
  rw [List.filter_filter]
  congr 1
  funext p
  rw [Bool.and_self]

theorem getElem?_some_lt {α : Type} {l : List α} {i : ℕ} {a : α}
    (h : l[i]? = some a) : i < l.length :=
  (List.getElem?_eq_some.mp h).1

theorem applyInliers_spec (camIdx : ℤ) (corrPts : List ℕ) :
    ∀ (inliers : List ℕ) (pd pd1 : List PointData),
      applyInliers camIdx corrPts pd inliers = some pd1 →
      pd1.length = pd.length ∧
      ∀ j : ℕ,
        ((¬ ∃ i ∈ inliers, corrPts[i]? = some j) → pd1[j]? = pd[j]?) ∧
        ((∃ i ∈ inliers, corrPts[i]? = some j) →
          ∀ e : PointData, pd[j]? = some e →
            ∃ v : ℤ, lookup e.toReconstruct camIdx = some v ∧
              pd1[j]? = some ⟨emplace e.reconstructed camIdx v,
                              e.toReconstruct⟩) := by
  intro inliers
  induction inliers with
  | nil =>
      intro pd pd1 h
      obtain rfl := Option.some_inj.mp h
      refine ⟨rfl, ?_⟩
      intro j
      refine ⟨fun _ => rfl, ?_⟩
      rintro ⟨i, hi, _⟩
      cases hi
  | cons i0 is ih =>
      intro pd pd1 h
      rw [applyInliers] at h
      rcases hc : corrPts[i0]? with _ | ptIdx
      · simp only [hc, Option.none_bind] at h
        cases h
      simp only [hc, Option.some_bind] at h
      rcases he : pd[ptIdx]? with _ | entry
      · simp only [he, Option.none_bind] at h
        cases h
      simp only [he, Option.some_bind] at h
      rcases hv : lookup entry.toReconstruct camIdx with _ | v
      · simp only [hv, Option.none_bind] at h
        cases h
      simp only [hv, Option.some_bind] at h
      have hlt : ptIdx < pd.length := getElem?_some_lt he
      obtain ⟨ihlen, ihchar⟩ := ih _ _ h
      have hlen' : pd1.length = pd.length := by
        rw [ihlen, List.length_set]
      refine ⟨hlen', ?_⟩
      intro j
      by_cases hj : j = ptIdx
      · subst hj
        constructor
        · intro hns
          exact absurd ⟨i0, List.mem_cons_self i0 is, hc⟩ hns
        · intro _ e hee
          rw [he] at hee
          obtain rfl := Option.some_inj.mp hee
          by_cases hsel : ∃ i ∈ is, corrPts[i]? = some j
          · obtain ⟨w, hw, h1⟩ := (ihchar j).2 hsel
              ⟨emplace entry.reconstructed camIdx v, entry.toReconstruct⟩
              (by rw [List.getElem?_set_eq_of_lt _ hlt])
            rw [show (⟨emplace entry.reconstructed camIdx v,
                entry.toReconstruct⟩ : PointData).toReconstruct
                = entry.toReconstruct from rfl, hv] at hw
            obtain rfl := Option.some_inj.mp hw
            refine ⟨v, hv, ?_⟩
            rw [h1]
            rw [show (⟨emplace entry.reconstructed camIdx v,
                entry.toReconstruct⟩ : PointData).reconstructed
                = emplace entry.reconstructed camIdx v from rfl,
              emplace_emplace_self]
          · have h1 := (ihchar j).1 hsel
            rw [List.getElem?_set_eq_of_lt _ hlt] at h1
            exact ⟨v, hv, h1⟩
      · constructor
        · intro hns
          have hns' : ¬ ∃ i ∈ is, corrPts[i]? = some j := by
            rintro ⟨i, hi, hci⟩
            exact hns ⟨i, List.mem_cons_of_mem i0 hi, hci⟩
          rw [(ihchar j).1 hns', List.getElem?_set_ne (fun hh => hj hh.symm)]
        · rintro ⟨i, hi, hci⟩ e hee
          rcases List.mem_cons.mp hi with rfl | hi'
          · rw [hc] at hci
            exact absurd (Option.some_inj.mp hci).symm hj
          · obtain ⟨w, hw, h1⟩ := (ihchar j).2 ⟨i, hi', hci⟩ e
              (by rw [List.getElem?_set_ne (fun hh => hj hh.symm)]; exact hee)
            exact ⟨w, hw, h1⟩

theorem erasePhase_spec (camIdx : ℤ) :
    ∀ (corrPts : List ℕ) (pd pd2 : List PointData),
      erasePhase camIdx pd corrPts = some pd2 →
      pd2.length = pd.length ∧
      ∀ j : ℕ,
        (j ∉ corrPts → pd2[j]? = pd[j]?) ∧
        (j ∈ corrPts → ∀ e : PointData, pd[j]? = some e →
          pd2[j]? = some ⟨e.reconstructed,
                          eraseKey e.toReconstruct camIdx⟩) := by
  intro corrPts
  induction corrPts with
  | nil =>
      intro pd pd2 h
      obtain rfl := Option.some_inj.mp h
      refine ⟨rfl, ?_⟩
      intro j
      refine ⟨fun _ => rfl, ?_⟩
      intro hj
      cases hj
  | cons ptIdx rest ih =>
      intro pd pd2 h
      rw [erasePhase] at h
      rcases he : pd[ptIdx]? with _ | entry
      · simp only [he, Option.none_bind] at h
        cases h
      simp only [he, Option.some_bind] at h
      have hlt : ptIdx < pd.length := getElem?_some_lt he
      obtain ⟨ihlen, ihchar⟩ := ih _ _ h
      have hlen' : pd2.length = pd.length := by
        rw [ihlen, List.length_set]
      refine ⟨hlen', ?_⟩
      intro j
      by_cases hj : j = ptIdx
      · subst hj
        constructor
        · intro hns
          exact absurd (List.mem_cons_self j rest) hns
        · intro _ e hee
          rw [he] at hee
          obtain rfl := Option.some_inj.mp hee
          by_cases hmem : j ∈ rest
          · have h1 := (ihchar j).2 hmem
              ⟨entry.reconstructed, eraseKey entry.toReconstruct camIdx⟩
              (by rw [List.getElem?_set_eq_of_lt _ hlt])
            rw [h1]
            rw [show (⟨entry.reconstructed,
                eraseKey entry.toReconstruct camIdx⟩ : PointData).toReconstruct
                = eraseKey entry.toReconstruct camIdx from rfl,
              show (⟨entry.reconstructed,
                eraseKey entry.toReconstruct camIdx⟩ : PointData).reconstructed
                = entry.reconstructed from rfl,
              eraseKey_eraseKey_self]
          · have h1 := (ihchar j).1 hmem
            rw [List.getElem?_set_eq_of_lt _ hlt] at h1
            exact h1
      · constructor
        · intro hns
          have hmem : j ∉ rest := fun hh => hns (List.mem_cons_of_mem ptIdx hh)
          rw [(ihchar j).1 hmem, List.getElem?_set_ne (fun hh => hj hh.symm)]
        · intro hjmem e hee
          rcases List.mem_cons.mp hjmem with rfl | hmem
          · exact absurd rfl hj
          · exact (ihchar j).2 hmem e
              (by rw [List.getElem?_set_ne (fun hh => hj hh.symm)]; exact hee)

/-- C2: the two-tier `markCamAsReconstructed(camIdx, correspondingPoints,
correspondingPointsInliers)`, on a state satisfying the disjointness
invariant: when the call succeeds (all referenced indices valid and every
inlier track has `camIdx` pending — otherwise `at` throws), every track
referenced through an inlier index gains `camIdx` in `reconstructed` with its
pending observation index; every track in `correspondingPoints` — inlier or
not — loses `camIdx` from `toReconstruct`; a non-inlier track keeps its
`reconstructed` map unchanged, so a pending observation of `camIdx` is
discarded without ever appearing in `reconstructed`; all other tracks and the
remaining fields are untouched. -/
theorem markCamAsReconstructed2_spec (camIdx : ℤ) (corrPts inliers : List ℕ)
    (s s' : Points)
    (hmark : s.markCamAsReconstructed2 camIdx corrPts inliers = some s')
    (hdisj : ∀ e ∈ s.ptData, DisjointKeys e.reconstructed e.toReconstruct) :
    s'.ptCoord = s.ptCoord ∧
    s'.matchesToReconstruct = s.matchesToReconstruct ∧
    s'.ptData.length = s.ptData.length ∧
    (∀ i ∈ inliers, ∀ ptIdx : ℕ, corrPts[i]? = some ptIdx →
      ∀ e e' : PointData, s.ptData[ptIdx]? = some e →
        s'.ptData[ptIdx]? = some e' →
          (lookup e.toReconstruct camIdx).isSome ∧
          lookup e'.reconstructed camIdx = lookup e.toReconstruct camIdx ∧
          lookup e'.toReconstruct camIdx = none) ∧
    (∀ ptIdx ∈ corrPts, ∀ e e' : PointData, s.ptData[ptIdx]? = some e →
      s'.ptData[ptIdx]? = some e' →
        lookup e'.toReconstruct camIdx = none ∧
        ((¬ ∃ i ∈ inliers, corrPts[i]? = some ptIdx) →
          e'.reconstructed = e.reconstructed ∧
          ((lookup e.toReconstruct camIdx).isSome →
            lookup e'.reconstructed camIdx = none))) ∧
    (∀ j : ℕ, j ∉ corrPts → s'.ptData[j]? = s.ptData[j]?) := by
  rw [Points.markCamAsReconstructed2] at hmark
  rcases happ : applyInliers camIdx corrPts s.ptData inliers with _ | pd1
  · rw [happ] at hmark; cases hmark
  simp only [happ, Option.some_bind] at hmark
  rcases hep : erasePhase camIdx pd1 corrPts with _ | pd2
  · rw [hep] at hmark; cases hmark
  simp only [hep, Option.map_some'] at hmark
  obtain rfl := Option.some_inj.mp hmark
  obtain ⟨alen, achar⟩ := applyInliers_spec camIdx corrPts inliers s.ptData pd1 happ
  obtain ⟨elen, echar⟩ := erasePhase_spec camIdx corrPts pd1 pd2 hep
  refine ⟨rfl, rfl, ?_, ?_, ?_, ?_⟩
  · show pd2.length = s.ptData.length
    rw [elen, alen]
  · intro i hi ptIdx hci e e' he he'
    have hsel : ∃ i' ∈ inliers, corrPts[i']? = some ptIdx := ⟨i, hi, hci⟩
    obtain ⟨v, hv, h1⟩ := (achar ptIdx).2 hsel e he
    have hmem : ptIdx ∈ corrPts := List.getElem?_mem hci
    have h2 := (echar ptIdx).2 hmem _ h1
    rw [he'] at h2
    obtain rfl := Option.some_inj.mp h2
    refine ⟨by rw [hv]; rfl, ?_, ?_⟩
    · show lookup (emplace e.reconstructed camIdx v) camIdx = _
      rw [lookup_emplace, if_pos rfl]
      have hdnone : lookup e.reconstructed camIdx = none := by
        rcases disjointKeys_lookup (hdisj e (List.getElem?_mem he)) camIdx with hn | hn
        · exact hn
        · rw [hn] at hv; cases hv
      rw [hdnone, hv]
      rfl
    · show lookup (eraseKey e.toReconstruct camIdx) camIdx = none
      rw [lookup_eraseKey, if_pos rfl]
  · intro ptIdx hmem e e' he he'
    by_cases hsel : ∃ i ∈ inliers, corrPts[i]? = some ptIdx
    · obtain ⟨v, hv, h1⟩ := (achar ptIdx).2 hsel e he
      have h2 := (echar ptIdx).2 hmem _ h1
      rw [he'] at h2
      obtain rfl := Option.some_inj.mp h2
      refine ⟨?_, ?_⟩
      · show lookup (eraseKey e.toReconstruct camIdx) camIdx = none
        rw [lookup_eraseKey, if_pos rfl]
      · intro hns
        exact absurd hsel hns
    · have h1 := (achar ptIdx).1 hsel
      rw [he] at h1
      have h2 := (echar ptIdx).2 hmem e h1
      rw [he'] at h2
      obtain rfl := Option.some_inj.mp h2
      refine ⟨?_, ?_⟩
      · show lookup (eraseKey e.toReconstruct camIdx) camIdx = none
        rw [lookup_eraseKey, if_pos rfl]
      · intro _
        refine ⟨rfl, ?_⟩
        intro hpend
        show lookup e.reconstructed camIdx = none
        rcases disjointKeys_lookup (hdisj e (List.getElem?_mem he)) camIdx with hn | hn
        · exact hn
        · rw [hn] at hpend; cases hpend
  · intro j hj
    have hnsel : ¬ ∃ i ∈ inliers, corrPts[i]? = some j := by
      rintro ⟨i, hi, hci⟩
      exact hj (List.getElem?_mem hci)
    show pd2[j]? = s.ptData[j]?
    rw [(echar j).1 hj, (achar j).1 hnsel]

/-- Witness for C2: two tracks both observing camera 3ドル as pending (indices
7 and 9); the two-tier mark with candidate tracks 0ドル and 1ドル but only track
0ドル an inlier promotes the pending observation of the inlier track 0ドル:
afterwards its reconstructed map holds camera 3ドル with the formerly pending
index 7, and its toReconstruct entry for camera 3ドル is gone. -/
theorem markCamAsReconstructed2_spec_witness :
    (lookup (⟨[], [(3, 7)]⟩ : PointData).toReconstruct 3).isSome ∧
    lookup (⟨[(3, 7)], []⟩ : PointData).reconstructed 3
      = lookup (⟨[], [(3, 7)]⟩ : PointData).toReconstruct 3 ∧
    lookup (⟨[(3, 7)], []⟩ : PointData).toReconstruct 3 = none :=
  (markCamAsReconstructed2_spec 3 [0, 1] [0]
      ⟨[(0, 0, 0), (1, 1, 1)], [⟨[], [(3, 7)]⟩, ⟨[], [(3, 9)]⟩], []⟩
      ⟨[(0, 0, 0), (1, 1, 1)], [⟨[(3, 7)], []⟩, ⟨[], []⟩], []⟩
      (by decide) (by decide)).2.2.2.1
    0 (by decide) 0 (by decide) ⟨[], [(3, 7)]⟩ ⟨[(3, 7)], []⟩
    (by decide) (by decide)

theorem filterMap_getElem?_nil {α : Type} (idxs : List ℕ) :
    idxs.filterMap (fun i => ([] : List α)[i]?) = [] := by
  induction idxs with
  | nil => rfl
  | cons i rest ih => simp [List.filterMap_cons, ih]

theorem filterVector_filterMap {α : Type} (keep : List Bool) :
    ∀ l : List α, filterVector keep l = (trueIdxs keep).filterMap (fun i => l[i]?) := by
  induction keep with
  | nil => intro l; rfl
  | cons b kt ih =>
      intro l
      cases l with
      | nil =>
          rw [show filterVector (b :: kt) ([] : List α) = [] from rfl,
            filterMap_getElem?_nil]
      | cons a lt =>
          cases b with
          | false =>
              rw [show filterVector (false :: kt) (a :: lt)
                  = filterVector kt lt from rfl, trueIdxs]
              simp only [Bool.false_eq_true, if_false, List.filterMap_map]
              rw [ih lt]
              have harg : ((fun i => (a :: lt)[i]?) ∘ Nat.succ)
                  = (fun i : ℕ => lt[i]?) := by
                funext i
                simp [Function.comp]
              rw [harg]
          | true =>
              rw [show filterVector (true :: kt) (a :: lt)
                  = a :: filterVector kt lt from rfl, trueIdxs]
              simp only [if_true, List.filterMap_cons, List.getElem?_cons_zero,
                List.filterMap_map]
              rw [ih lt]
              have harg : ((fun i => (a :: lt)[i]?) ∘ Nat.succ)
                  = (fun i : ℕ => lt[i]?) := by
                funext i
                simp [Function.comp]
              rw [harg]

theorem filterVector_sublist {α : Type} (keep : List Bool) :
    ∀ l : List α, (filterVector keep l).Sublist l := by
  induction keep with
  | nil => intro l; exact (List.nil_sublist l)
  | cons b kt ih =>
      intro l
      cases l with
      | nil => exact List.Sublist.refl []
      | cons a lt =>
          cases b with
          | false =>
              rw [show filterVector (false :: kt) (a :: lt)
                  = filterVector kt lt from rfl]
              exact List.Sublist.cons a (ih lt)
          | true =>
              rw [show filterVector (true :: kt) (a :: lt)
                  = a :: filterVector kt lt from rfl]
              exact List.Sublist.cons₂ a (ih lt)

theorem filterVector_length_eq {α β : Type} (keep : List Bool) :
    ∀ (l1 : List α) (l2 : List β), l1.length = l2.length →
      (filterVector keep l1).length = (filterVector keep l2).length := by
  induction keep with
  | nil => intro l1 l2 _; rfl
  | cons b kt ih =>
      intro l1 l2 hl
      cases l1 with
      | nil =>
          cases l2 with
          | nil => rfl
          | cons a2 t2 => simp at hl
      | cons a1 t1 =>
          cases l2 with
          | nil => simp at hl
          | cons a2 t2 =>
              have ht : t1.length = t2.length := by
                simp only [List.length_cons] at hl; omega
              cases b with
              | false =>
                  rw [show filterVector (false :: kt) (a1 :: t1)
                      = filterVector kt t1 from rfl,
                    show filterVector (false :: kt) (a2 :: t2)
                      = filterVector kt t2 from rfl]
                  exact ih t1 t2 ht
              | true =>
                  rw [show filterVector (true :: kt) (a1 :: t1)
                      = a1 :: filterVector kt t1 from rfl,
                    show filterVector (true :: kt) (a2 :: t2)
                      = a2 :: filterVector kt t2 from rfl]
                  simp only [List.length_cons]
                  rw [ih t1 t2 ht]

theorem markEntries_length (camIdx : ℤ) :
    ∀ pd pd' : List PointData, markEntries camIdx pd = some pd' →
      pd'.length = pd.length := by
  intro pd
  induction pd with
  | nil =>
      intro pd' h
      obtain rfl := Option.some_inj.mp h
      rfl
  | cons e rest ih =>
      intro pd' h
      rw [markEntries] at h
      rcases hv : lookup e.toReconstruct camIdx with _ | v
      · rw [hv] at h; cases h
      simp only [hv, Option.some_bind] at h
      rcases hr : markEntries camIdx rest with _ | rest'
      · rw [hr] at h; cases h
      rw [hr, Option.map_some'] at h
      obtain rfl := Option.some_inj.mp h
      simp only [List.length_cons]
      rw [ih rest' hr]

theorem seedTracks_lengths (a b : ℤ) (buffer : List NVMatch) :
    ∀ (coord : List Vec3) (idxs : List ℕ) (seeded : List (Vec3 × PointData)),
      seedTracks a b buffer coord idxs = some seeded →
      seeded.length = coord.length := by
  intro coord
  induction coord with
  | nil =>
      intro idxs seeded h
      obtain rfl := Option.some_inj.mp h
      rfl
  | cons c cs ih =>
      intro idxs seeded h
      match idxs with
      | [] => rw [seedTracks] at h; cases h
      | i :: is =>
          rw [seedTracks] at h
          rcases hb : buffer[i]? with _ | m
          · rw [hb] at h; cases h
          simp only [hb, Option.some_bind] at h
          rcases hv1 : lookup m a with _ | v1
          · rw [hv1] at h; cases h
          simp only [hv1, Option.some_bind] at h
          rcases hv2 : lookup m b with _ | v2
          · rw [hv2] at h; cases h
          simp only [hv2, Option.some_bind] at h
          rcases hr : seedTracks a b buffer cs is with _ | rest
          · rw [hr] at h; cases h
          simp only [hr, Option.map_some'] at h
          obtain rfl := Option.some_inj.mp h
          simp only [List.length_cons]
          rw [ih is rest hr]

theorem seedSplit_lengths :
    ∀ (coord : List Vec3) (views : List SplitNViewMatch)
      (seeded : List (Vec3 × PointData)),
      seedSplit coord views = some seeded → seeded.length = coord.length := by
  intro coord
  induction coord with
  | nil =>
      intro views seeded h
      obtain rfl := Option.some_inj.mp h
      rfl
  | cons c cs ih =>
      intro views seeded h
      match views with
      | [] => rw [seedSplit] at h; cases h
      | v :: vs =>
          rw [seedSplit] at h
          rcases hr : seedSplit cs vs with _ | rest
          · rw [hr] at h; cases h
          rw [hr, Option.map_some'] at h
          obtain rfl := Option.some_inj.mp h
          simp only [List.length_cons]
          rw [ih vs rest hr]

theorem reachable_lengths {s : Points} (h : Reachable s) :
    s.ptCoord.length = s.ptData.length := by
  induction h with
  | init ms => rfl
  | setMatches ms _ ih => exact ih
  | @addPointsPair s s' ab idxs coord _ heq ih =>
      rw [Points.addPointsPair] at heq
      rcases hs : seedTracks ab.1 ab.2 s.matchesToReconstruct coord idxs
        with _ | seeded
      · rw [hs] at heq; cases heq
      rw [hs, Option.map_some'] at heq
      obtain rfl := Option.some_inj.mp heq
      show (s.ptCoord ++ seeded.map Prod.fst).length
        = (s.ptData ++ seeded.map Prod.snd).length
      simp only [List.length_append, List.length_map]
      rw [ih]
  | @addPointsSplit s s' coord views _ heq ih =>
      rw [Points.addPointsSplit] at heq
      rcases hs : seedSplit coord views with _ | seeded
      · rw [hs] at heq; cases heq
      rw [hs, Option.map_some'] at heq
      obtain rfl := Option.some_inj.mp heq
      show (s.ptCoord ++ seeded.map Prod.fst).length
        = (s.ptData ++ seeded.map Prod.snd).length
      simp only [List.length_append, List.length_map]
      rw [ih]
  | @removePoints s keep _ ih =>
      exact filterVector_length_eq keep s.ptCoord s.ptData ih
  | @mark1 s s' camIdx _ heq ih =>
      rw [Points.markCamAsReconstructed1] at heq
      rcases hm : markEntries camIdx s.ptData with _ | pd'
      · rw [hm] at heq; cases heq
      rw [hm, Option.map_some'] at heq
      obtain rfl := Option.some_inj.mp heq
      show s.ptCoord.length = pd'.length
      rw [markEntries_length camIdx s.ptData pd' hm]
      exact ih
  | @mark2 s s' camIdx corrPts inliers _ heq ih =>
      rw [Points.markCamAsReconstructed2] at heq
      rcases ha : applyInliers camIdx corrPts s.ptData inliers with _ | pd1
      · rw [ha] at heq; cases heq
      simp only [ha, Option.some_bind] at heq
      rcases hb : erasePhase camIdx pd1 corrPts with _ | pd2
      · rw [hb] at heq; cases heq
      simp only [hb, Option.map_some'] at heq
      obtain rfl := Option.some_inj.mp heq
      show s.ptCoord.length = pd2.length
      rw [(erasePhase_spec camIdx corrPts pd1 pd2 hb).1,
        (applyInliers_spec camIdx corrPts inliers s.ptData pd1 ha).1]
      exact ih

/-- C5: `Points::removePoints(keep)` with a mask whose length equals the
current track count retains exactly the tracks at the mask's true positions,
in their original relative order, selecting the same positions in `ptCoord`
and `ptData` (lock-step compaction); and `ptCoord.size() == ptData.size()`
holds in every state reachable by any sequence of `Points` operations. -/
theorem removePoints_spec :
    (∀ (keep : List Bool) (s : Points), keep.length = s.numPts →
      (s.removePoints keep).ptCoord =
        (trueIdxs keep).filterMap (fun i => s.ptCoord[i]?) ∧
      (s.removePoints keep).ptData =
        (trueIdxs keep).filterMap (fun i => s.ptData[i]?) ∧
      ((s.removePoints keep).ptCoord).Sublist s.ptCoord ∧
      ((s.removePoints keep).ptData).Sublist s.ptData) ∧
    (∀ s : Points, Reachable s → s.ptCoord.length = s.ptData.length) :=
  ⟨fun keep s _ =>
    ⟨filterVector_filterMap keep s.ptCoord,
     filterVector_filterMap keep s.ptData,
     filterVector_sublist keep s.ptCoord,
     filterVector_sublist keep s.ptData⟩,
   fun _ h => reachable_lengths h⟩

/-- Witness for C5: removing the middle track of a three-track store keeps
tracks 0ドル and 2ドル in order in both arrays, and the two arrays of a concrete
reachable state have equal lengths. -/
theorem removePoints_spec_witness :
    ((⟨[(0, 0, 0), (1, 1, 1), (2, 2, 2)],
        [⟨[(0, 1)], []⟩, ⟨[(1, 2)], []⟩, ⟨[(2, 3)], []⟩],
        []⟩ : Points).removePoints [true, false, true]).ptCoord =
      (trueIdxs [true, false, true]).filterMap
        (fun i => ([(0, 0, 0), (1, 1, 1), (2, 2, 2)] : List Vec3)[i]?) ∧
    (⟨[], [], []⟩ : Points).ptCoord.length = (⟨[], [], []⟩ : Points).ptData.length :=
  ⟨(removePoints_spec.1 [true, false, true]
      ⟨[(0, 0, 0), (1, 1, 1), (2, 2, 2)],
       [⟨[(0, 1)], []⟩, ⟨[(1, 2)], []⟩, ⟨[(2, 3)], []⟩], []⟩ rfl).1,
   removePoints_spec.2 ⟨[], [], []⟩ (Reachable.init [])⟩

theorem mem_getElem? {α : Type} {a : α} {l : List α} (h : a ∈ l) :
    ∃ n : ℕ, l[n]? = some a := by
  obtain ⟨n, hn, he⟩ := List.mem_iff_getElem.mp h
  exact ⟨n, by rw [List.getElem?_eq_getElem hn, he]⟩

theorem seedTracks_disjoint (a b : ℤ) (buffer : List NVMatch) :
    ∀ (coord : List Vec3) (idxs : List ℕ) (seeded : List (Vec3 × PointData)),
      seedTracks a b buffer coord idxs = some seeded →
      ∀ e ∈ seeded.map Prod.snd, ∀ k : ℤ,
        lookup e.reconstructed k = none ∨ lookup e.toReconstruct k = none := by
  intro coord
  induction coord with
  | nil =>
      intro idxs seeded h e he k
      obtain rfl := Option.some_inj.mp h
      simp at he
  | cons c cs ih =>
      intro idxs seeded h e he k
      match idxs with
      | [] => rw [seedTracks] at h; cases h
      | i :: is =>
          rw [seedTracks] at h
          rcases hb : buffer[i]? with _ | m
          · rw [hb] at h; cases h
          simp only [hb, Option.some_bind] at h
          rcases hv1 : lookup m a with _ | v1
          · rw [hv1] at h; cases h
          simp only [hv1, Option.some_bind] at h
          rcases hv2 : lookup m b with _ | v2
          · rw [hv2] at h; cases h
          simp only [hv2, Option.some_bind] at h
          rcases hr : seedTracks a b buffer cs is with _ | rest
          · rw [hr] at h; cases h
          simp only [hr, Option.map_some'] at h
          obtain rfl := Option.some_inj.mp h
          rw [List.map_cons] at he
          rcases List.mem_cons.mp he with rfl | hmem
          · by_cases hkb : k = b
            · right
              show lookup (eraseKey (eraseKey m a) b) k = none
              rw [lookup_eraseKey, if_pos hkb]
            · by_cases hka : k = a
              · right
                show lookup (eraseKey (eraseKey m a) b) k = none
                rw [lookup_eraseKey, if_neg hkb, lookup_eraseKey, if_pos hka]
              · left
                show lookup (assign (assign [] a v1) b v2) k = none
                rw [lookup_assign, if_neg hkb, lookup_assign, if_neg hka,
                  lookup_nil]
          · exact ih is rest hr e hmem k

theorem seedSplit_disjoint :
    ∀ (coord : List Vec3) (views : List SplitNViewMatch)
      (seeded : List (Vec3 × PointData)),
      seedSplit coord views = some seeded →
      ∀ e ∈ seeded.map Prod.snd, ∀ k : ℤ,
        lookup e.reconstructed k = none ∨ lookup e.toReconstruct k = none := by
  intro coord
  induction coord with
  | nil =>
      intro views seeded h e he k
      obtain rfl := Option.some_inj.mp h
      simp at he
  | cons c cs ih =>
      intro views seeded h e he k
      match views with
      | [] => rw [seedSplit] at h; cases h
      | v :: vs =>
          rw [seedSplit] at h
          rcases hr : seedSplit cs vs with _ | rest
          · rw [hr] at h; cases h
          rw [hr, Option.map_some'] at h
          obtain rfl := Option.some_inj.mp h
          rw [List.map_cons] at he
          rcases List.mem_cons.mp he with rfl | hmem
          · exact disjointKeys_lookup v.disj k
          · exact ih vs rest hr e hmem k

theorem markEntries_disjoint (camIdx : ℤ) :
    ∀ (pd pd' : List PointData), markEntries camIdx pd = some pd' →
      (∀ e ∈ pd, ∀ k : ℤ,
        lookup e.reconstructed k = none ∨ lookup e.toReconstruct k = none) →
      ∀ e' ∈ pd', ∀ k : ℤ,
        lookup e'.reconstructed k = none ∨ lookup e'.toReconstruct k = none := by
  intro pd
  induction pd with
  | nil =>
      intro pd' h _ e' he' k
      obtain rfl := Option.some_inj.mp h
      simp at he'
  | cons e0 rest ih =>
      intro pd' h hall e' he' k
      rw [markEntries] at h
      rcases hv : lookup e0.toReconstruct camIdx with _ | v
      · rw [hv] at h; cases h
      simp only [hv, Option.some_bind] at h
      rcases hr : markEntries camIdx rest with _ | rest'
      · rw [hr] at h; cases h
      rw [hr, Option.map_some'] at h
      obtain rfl := Option.some_inj.mp h
      rcases List.mem_cons.mp he' with rfl | hmem
      · by_cases hk : k = camIdx
        · right
          show lookup (eraseKey e0.toReconstruct camIdx) k = none
          rw [lookup_eraseKey, if_pos hk]
        · rcases hall e0 (List.mem_cons_self e0 rest) k with hn | hn
          · left
            show lookup (emplace e0.reconstructed camIdx v) k = none
            rw [lookup_emplace, if_neg hk]
            exact hn
          · right
            show lookup (eraseKey e0.toReconstruct camIdx) k = none
            rw [lookup_eraseKey, if_neg hk]
            exact hn
      · exact ih rest' hr (fun e he k2 => hall e (List.mem_cons_of_mem e0 he) k2)
          e' hmem k

/-- C1: in every `Points` state reachable by any sequence of the mutating
operations (both `addPoints` overloads, `removePoints`, and both
`markCamAsReconstructed` overloads — an operation whose C++ execution throws
produces no new state), the key sets of every track's `reconstructed` and
`toReconstruct` maps are disjoint. -/
theorem reconstructed_toReconstruct_disjoint {s : Points} (h : Reachable s) :
    ∀ e ∈ s.ptData, ∀ k : ℤ,
      lookup e.reconstructed k = none ∨ lookup e.toReconstruct k = none := by
  induction h with
  | init ms =>
      intro e he k
      simp at he
  | setMatches ms _ ih =>
      intro e he k
      exact ih e he k
  | @addPointsPair s s' ab idxs coord _ heq ih =>
      rw [Points.addPointsPair] at heq
      rcases hs : seedTracks ab.1 ab.2 s.matchesToReconstruct coord idxs
        with _ | seeded
      · rw [hs] at heq; cases heq
      rw [hs, Option.map_some'] at heq
      obtain rfl := Option.some_inj.mp heq
      intro e he k
      rcases List.mem_append.mp he with h1 | h2
      · exact ih e h1 k
      · exact seedTracks_disjoint ab.1 ab.2 s.matchesToReconstruct coord idxs
          seeded hs e h2 k
  | @addPointsSplit s s' coord views _ heq ih =>
      rw [Points.addPointsSplit] at heq
      rcases hs : seedSplit coord views with _ | seeded
      · rw [hs] at heq; cases heq
      rw [hs, Option.map_some'] at heq
      obtain rfl := Option.some_inj.mp heq
      intro e he k
      rcases List.mem_append.mp he with h1 | h2
      · exact ih e h1 k
      · exact seedSplit_disjoint coord views seeded hs e h2 k
  | @removePoints s keep _ ih =>
      intro e he k
      exact ih e ((filterVector_sublist keep s.ptData).subset he) k
  | @mark1 s s' camIdx _ heq ih =>
      rw [Points.markCamAsReconstructed1] at heq
      rcases hm : markEntries camIdx s.ptData with _ | pd'
      · rw [hm] at heq; cases heq
      rw [hm, Option.map_some'] at heq
      obtain rfl := Option.some_inj.mp heq
      intro e' he' k
      exact markEntries_disjoint camIdx s.ptData pd' hm ih e' he' k
  | @mark2 s s' camIdx corrPts inliers _ heq ih =>
      rw [Points.markCamAsReconstructed2] at heq
      rcases ha : applyInliers camIdx corrPts s.ptData inliers with _ | pd1
      · rw [ha] at heq; cases heq
      simp only [ha, Option.some_bind] at heq
      rcases hb : erasePhase camIdx pd1 corrPts with _ | pd2
      · rw [hb] at heq; cases heq
      simp only [hb, Option.map_some'] at heq
      obtain rfl := Option.some_inj.mp heq
      obtain ⟨alen, achar⟩ :=
        applyInliers_spec camIdx corrPts inliers s.ptData pd1 ha
      obtain ⟨elen, echar⟩ := erasePhase_spec camIdx corrPts pd1 pd2 hb
      intro e' he' k
      obtain ⟨j, hj⟩ := mem_getElem? he'
      by_cases hjc : j ∈ corrPts
      · have hjlt1 : j < pd1.length := by
          rw [← elen]
          exact getElem?_some_lt hj
        have he1 : pd1[j]? = some pd1[j] := List.getElem?_eq_getElem hjlt1
        have h2 := (echar j).2 hjc _ he1
        rw [hj] at h2
        obtain rfl := Option.some_inj.mp h2
        by_cases hk : k = camIdx
        · right
          show lookup (eraseKey (pd1[j]).toReconstruct camIdx) k = none
          rw [lookup_eraseKey, if_pos hk]
        · by_cases hsel : ∃ i ∈ inliers, corrPts[i]? = some j
          · have hjlt0 : j < s.ptData.length := by
              rw [← alen]
              exact hjlt1
            have he0 : s.ptData[j]? = some (s.ptData[j]) :=
              List.getElem?_eq_getElem hjlt0
            obtain ⟨v, hv, h1⟩ := (achar j).2 hsel _ he0
            rw [he1] at h1
            have hpd1j := Option.some_inj.mp h1
            rw [hpd1j]
            rcases ih (s.ptData[j]) (List.getElem?_mem he0) k with hn | hn
            · left
              show lookup (emplace (s.ptData[j]).reconstructed camIdx v) k = none
              rw [lookup_emplace, if_neg hk]
              exact hn
            · right
              show lookup (eraseKey (s.ptData[j]).toReconstruct camIdx) k = none
              rw [lookup_eraseKey, if_neg hk]
              exact hn
          · have h1 := (achar j).1 hsel
            rw [he1] at h1
            rcases ih (pd1[j]) (List.getElem?_mem h1.symm) k with hn | hn
            · left
              exact hn
            · right
              show lookup (eraseKey (pd1[j]).toReconstruct camIdx) k = none
              rw [lookup_eraseKey, if_neg hk]
              exact hn
      · have hnsel : ¬ ∃ i ∈ inliers, corrPts[i]? = some j := by
          rintro ⟨i, hi, hci⟩
          exact hjc (List.getElem?_mem hci)
        have h1 : pd2[j]? = s.ptData[j]? := by
          rw [(echar j).1 hjc, (achar j).1 hnsel]
        rw [hj] at h1
        exact ih e' (List.getElem?_mem h1.symm) k

/-- Witness for C1 at a concrete reachable state (one bulk-imported track with
observed part on camera 1 and unobserved part on camera 3), instantiated at
the track and at key 1. -/
theorem reconstructed_toReconstruct_disjoint_witness :
    lookup (⟨[(1, 2)], [(3, 4)]⟩ : PointData).reconstructed 1 = none ∨
    lookup (⟨[(1, 2)], [(3, 4)]⟩ : PointData).toReconstruct 1 = none := by
  have hr : Reachable ⟨[(0, 0, 0)], [⟨[(1, 2)], [(3, 4)]⟩], []⟩ :=
    Reachable.addPointsSplit [(0, 0, 0)] [⟨[(1, 2)], [(3, 4)], by decide⟩]
      (Reachable.init []) (by decide)
  exact reconstructed_toReconstruct_disjoint hr ⟨[(1, 2)], [(3, 4)]⟩
    (by decide) 1

/-- C9 failing input: `Dataset::copyIn` (used by both the copy constructor and
copy assignment) does not clear the target's camera vector before pushing the
clones, so copy-assigning a dataset that already holds one camera from a
one-camera source leaves two cameras — not "exactly clones of the source's
cameras" as the spec requires of a copy. -/
theorem datasetCopyAssign_appends_instead_of_replacing :
    (Dataset.copyAssign
        (⟨"d1", [CameraVariant.base ⟨"a", 1, 1, [], []⟩], (), ∅,
          ⟨[], [], []⟩⟩ : Dataset Unit)
        ⟨"d2", [CameraVariant.base ⟨"b", 2, 2, [], []⟩], (), ∅,
          ⟨[], [], []⟩⟩).cams =
      [CameraVariant.base ⟨"a", 1, 1, [], []⟩,
       CameraVariant.base ⟨"b", 2, 2, [], []⟩] ∧
    (Dataset.copyAssign
        (⟨"d1", [CameraVariant.base ⟨"a", 1, 1, [], []⟩], (), ∅,
          ⟨[], [], []⟩⟩ : Dataset Unit)
        ⟨"d2", [CameraVariant.base ⟨"b", 2, 2, [], []⟩], (), ∅,
          ⟨[], [], []⟩⟩).cams.length ≠
      ((⟨"d2", [CameraVariant.base ⟨"b", 2, 2, [], []⟩], (), ∅,
          ⟨[], [], []⟩⟩ : Dataset Unit).cams.map CameraVariant.clone).length :=
  ⟨rfl, by decide⟩

end Yasfm
